import Mathlib

/-!
Verification of the loki-network routing-message subsystem.

The repository's visible headers declare `llarp::routing::PathLatencyMessage`
(fields `T`, `L`, methods `BEncode`, `DecodeKey`, `HandleMessage`) and the
logging / JNI entry points.  The bodies of the bencode codec and of the
latency-probe methods are not part of the visible sources, so those parts are
modelled from the specification: a canonical keyed binary serialization
(length-prefixed byte-string keys, `i...e` integers, `l...e` lists, `d...e`
dictionaries), streaming key-driven decode with unknown-key skipping, a
reserved discriminant key consumed first by the dispatch table, and the
originator / responder roles of the latency probe.

Buffers are lists of natural numbers (bytes); fallible decoding returns
`Except DecodeError`.
-/

namespace LokiRouting

/-- Modelled from the spec: the error taxonomy of the error-handling design
(`MalformedInput`, `TypeMismatch`, `UnknownDiscriminant`); `HandlerRejected`
is the `false` result of a handler, not a decode error. -/
inductive DecodeError where
  | MalformedInput
  | TypeMismatch
  | UnknownDiscriminant
deriving DecidableEq

/-- Whether a byte is an ASCII decimal digit. -/
def isDigit (c : Nat) : Bool := 48 ≤ c && c ≤ 57

/-- The big-endian decimal digit list of a natural number (`[0]` for `0`,
no leading zeros otherwise). -/
def decDigits (n : Nat) : List Nat :=
  if n = 0 then [0] else (Nat.digits 10 n).reverse

/-- Canonical ASCII decimal rendering of a natural number, big-endian,
no leading zeros (`0` is rendered as the single digit `0`). -/
def natDec (n : Nat) : List Nat := (decDigits n).map (fun d => d + 48)

/-- First byte of a buffer is a digit. -/
def headDigit : List Nat → Bool
  | [] => false
  | c :: _ => isDigit c

/-- Consume a maximal run of leading decimal digits, returning how many
digits were consumed, the accumulated value, and the rest of the buffer. -/
def readDigits : List Nat → Nat → Nat × Nat × List Nat
  | [], acc => (0, acc, [])
  | c :: rest, acc =>
    if isDigit c then
      let r := readDigits rest (acc * 10 + (c - 48))
      (r.1 + 1, r.2.1, r.2.2)
    else (0, acc, c :: rest)

/-- Value of a big-endian decimal digit list, folded onto an accumulator. -/
def digitsVal : List Nat → Nat → Nat
  | [], acc => acc
  | d :: ds, acc => digitsVal ds (acc * 10 + d)

/-- Modelled from the spec: parse an ASCII decimal natural number from the
front of the buffer; at least one digit is required (`MalformedInput`
otherwise). -/
def parseNat (s : List Nat) : Except DecodeError (Nat × List Nat) :=
  let r := readDigits s 0
  if r.1 = 0 then .error .MalformedInput else .ok (r.2.1, r.2.2)

/-- Take exactly `n` bytes from the front of a buffer, failing if the buffer
is shorter than `n`. -/
def takeExact : Nat → List Nat → Option (List Nat × List Nat)
  | 0, s => some ([], s)
  | _ + 1, [] => none
  | n + 1, c :: s =>
    match takeExact n s with
    | some (a, r) => some (c :: a, r)
    | none => none

/-- Canonical encoding of a byte string: decimal length, `:` (58), bytes. -/
def encodeStr (k : List Nat) : List Nat := natDec k.length ++ 58 :: k

/-- Modelled from the spec: decode one length-prefixed byte string from the
front of the buffer; truncated or ill-formed length prefixes fail with
`MalformedInput`. -/
def parseStr (s : List Nat) : Except DecodeError (List Nat × List Nat) :=
  match parseNat s with
  | .error e => .error e
  | .ok (n, r) =>
    match r with
    | [] => .error .MalformedInput
    | c :: r2 =>
      if c = 58 then
        match takeExact n r2 with
        | some (a, rest) => .ok (a, rest)
        | none => .error .MalformedInput
      else .error .MalformedInput

/-- Digit-and-terminator part of an integer token (after the leading `i`):
optional `-` (45), decimal digits, closing `e` (101). -/
def parseIntCore (s : List Nat) : Except DecodeError (Int × List Nat) :=
  match s with
  | [] => .error .MalformedInput
  | c :: r =>
    if c = 45 then
      match parseNat r with
      | .error e => .error e
      | .ok (n, r2) =>
        match r2 with
        | [] => .error .MalformedInput
        | c2 :: r3 => if c2 = 101 then .ok (-(n : Int), r3) else .error .MalformedInput
    else
      match parseNat (c :: r) with
      | .error e => .error e
      | .ok (n, r2) =>
        match r2 with
        | [] => .error .MalformedInput
        | c2 :: r3 => if c2 = 101 then .ok ((n : Int), r3) else .error .MalformedInput

/-- Modelled from the spec: decode one integer token `i<digits>e`; a leading
byte other than `i` (105) is a wire-type mismatch. -/
def parseBInt (s : List Nat) : Except DecodeError (Int × List Nat) :=
  match s with
  | [] => .error .MalformedInput
  | c :: r => if c = 105 then parseIntCore r else .error .TypeMismatch

/-- Canonical encoding of an unsigned integer field: `i<digits>e`. -/
def encNatInt (n : Nat) : List Nat := 105 :: natDec n ++ [101]

/-- Canonical encoding of a (possibly signed) integer value. -/
def intDec (z : Int) : List Nat :=
  if z < 0 then 45 :: natDec z.natAbs else natDec z.natAbs

/-- Modelled from the spec: decode an unsigned 64-bit field value; the wire
value must be an integer token (else `TypeMismatch`) and in range for an
unsigned 64-bit quantity (out-of-range is rejected the same way, never
silently coerced). -/
def parseUInt64 (s : List Nat) : Except DecodeError (Nat × List Nat) :=
  match parseBInt s with
  | .error e => .error e
  | .ok (z, r) =>
    if 0 ≤ z ∧ z < (2 : Int) ^ 64 then .ok (z.toNat, r) else .error .TypeMismatch

/-- Modelled from the spec: the Canonical Value domain — integers, byte
strings, ordered lists and ordered dictionaries of byte-string keys. -/
inductive BValue where
  | int : Int → BValue
  | str : List Nat → BValue
  | list : List BValue → BValue
  | dict : List (List Nat × BValue) → BValue

mutual

/-- Modelled from the spec: deterministic canonical encoding of a value
(`i...e` integers, length-prefixed strings, `l...e` lists, `d...e`
dictionaries). -/
def encodeVal : BValue → List Nat
  | .int z => 105 :: intDec z ++ [101]
  | .str s => encodeStr s
  | .list vs => 108 :: encodeItems vs ++ [101]
  | .dict es => 100 :: encodeEntries es ++ [101]

/-- Concatenated encodings of list items. -/
def encodeItems : List BValue → List Nat
  | [] => []
  | v :: vs => encodeVal v ++ encodeItems vs

/-- Concatenated encodings of dictionary entries (key, then value). -/
def encodeEntries : List (List Nat × BValue) → List Nat
  | [] => []
  | e :: es => encodeStr e.1 ++ encodeVal e.2 ++ encodeEntries es

end

mutual

/-- Modelled from the spec: streaming decode of one Canonical Value from the
front of the buffer.  The fuel argument bounds recursion depth; a fuel of
`buffer length + 1` always suffices for well-formed input. -/
def parseVal : Nat → List Nat → Except DecodeError (BValue × List Nat)
  | 0, _ => .error .MalformedInput
  | _ + 1, [] => .error .MalformedInput
  | fuel + 1, c :: rest =>
    if c = 105 then
      match parseIntCore rest with
      | .ok (z, r) => .ok (.int z, r)
      | .error e => .error e
    else if c = 108 then parseItems fuel rest []
    else if c = 100 then parseEntries fuel rest []
    else if isDigit c then
      match parseStr (c :: rest) with
      | .ok (s, r) => .ok (.str s, r)
      | .error e => .error e
    else .error .MalformedInput

/-- Decode list items until the closing `e`. -/
def parseItems : Nat → List Nat → List BValue → Except DecodeError (BValue × List Nat)
  | 0, _, _ => .error .MalformedInput
  | _ + 1, [], _ => .error .MalformedInput
  | fuel + 1, c :: rest, acc =>
    if c = 101 then .ok (.list acc.reverse, rest)
    else
      match parseVal fuel (c :: rest) with
      | .ok (v, r) => parseItems fuel r (v :: acc)
      | .error e => .error e

/-- Decode dictionary entries (key then value) until the closing `e`. -/
def parseEntries : Nat → List Nat → List (List Nat × BValue) →
    Except DecodeError (BValue × List Nat)
  | 0, _, _ => .error .MalformedInput
  | _ + 1, [], _ => .error .MalformedInput
  | fuel + 1, c :: rest, acc =>
    if c = 101 then .ok (.dict acc.reverse, rest)
    else
      match parseStr (c :: rest) with
      | .error e => .error e
      | .ok (k, r) =>
        match parseVal fuel r with
        | .ok (v, r2) => parseEntries fuel r2 ((k, v) :: acc)
        | .error e => .error e

end

/-- The latency-probe message of `llarp::routing::PathLatencyMessage`:
exactly two unsigned 64-bit fields, both zero on construction
(`uint64_t T = 0; uint64_t L = 0;`). -/
structure PathLatencyMessage where
  T : Nat := 0
  L : Nat := 0
deriving DecidableEq

/-- A freshly constructed (outbound, unfilled) instance, as built by the
default constructor `PathLatencyMessage()`. -/
def PathLatencyMessage.init : PathLatencyMessage := {}

/-- The fields are unsigned 64-bit quantities. -/
def msgValid (m : PathLatencyMessage) : Prop :=
  m.T < 2 ^ 64 ∧ m.L < 2 ^ 64

instance (m : PathLatencyMessage) : Decidable (msgValid m) := by
  unfold msgValid; infer_instance

/-- Modelled from the spec: the reserved top-level key that carries the
message discriminant and is consumed first by the dispatch table. -/
def discKey : List Nat := [65]

/-- Modelled from the spec: the latency probe's discriminant tag value. -/
def latencyTag : List Nat := [76]

/-- Wire key of the measured-latency field `L`. -/
def keyL : List Nat := [76]

/-- Wire key of the correlation-token field `T`. -/
def keyT : List Nat := [84]

/-- The field entries of an encoded latency probe: the `L` entry, the `T`
entry, and the dictionary terminator. -/
def latencyBody (m : PathLatencyMessage) : List Nat :=
  encodeStr keyL ++ (encNatInt m.L ++ (encodeStr keyT ++ (encNatInt m.T ++ [101])))

/-- Modelled from the spec: `PathLatencyMessage::BEncode` — serialize all
fields as a canonical dictionary, discriminant entry first, then the `L`
and `T` integer fields in canonical key order. -/
def PathLatencyMessage.BEncode (m : PathLatencyMessage) : List Nat :=
  100 :: (encodeStr discKey ++ (encodeStr latencyTag ++ latencyBody m))

/-- Modelled from the spec: `PathLatencyMessage::DecodeKey` — given one wire
key and the buffer positioned at its value, interpret and store the
corresponding field; a known key whose value has the wrong wire type fails
(`TypeMismatch`) leaving the instance untouched; an unknown key's value is
consumed generically and discarded. -/
def PathLatencyMessage.DecodeKey (m : PathLatencyMessage) (fuel : Nat)
    (key val : List Nat) : Except DecodeError (PathLatencyMessage × List Nat) :=
  if key = keyT then
    match parseUInt64 val with
    | .ok (n, r) => .ok ({ m with T := n }, r)
    | .error e => .error e
  else if key = keyL then
    match parseUInt64 val with
    | .ok (n, r) => .ok ({ m with L := n }, r)
    | .error e => .error e
  else
    match parseVal fuel val with
    | .ok (_, r) => .ok (m, r)
    | .error e => .error e

/-- Modelled from the spec: the streaming key-driven decode loop — read one
key at a time, let the message's `DecodeKey` interpret it, loop until the
dictionary terminator `e`; exhaustion of the buffer before the terminator is
`MalformedInput`. -/
def decodeFields : Nat → List Nat → PathLatencyMessage →
    Except DecodeError (PathLatencyMessage × List Nat)
  | 0, _, _ => .error .MalformedInput
  | _ + 1, [], _ => .error .MalformedInput
  | fuel + 1, c :: rest, m =>
    if c = 101 then .ok (m, rest)
    else
      match parseStr (c :: rest) with
      | .error e => .error e
      | .ok (k, r) =>
        match m.DecodeKey fuel k r with
        | .error e => .error e
        | .ok (m2, r2) => decodeFields fuel r2 m2

/-- Modelled from the spec: the generic decode/dispatch driver — expect a
top-level dictionary, consume the reserved discriminant entry first, look the
tag up in the dispatch table (which registers only the latency probe here),
and run the variant's field-decode loop; an unregistered tag fails with
`UnknownDiscriminant` before any variant decode begins. -/
def decodeMessage (buf : List Nat) : Except DecodeError PathLatencyMessage :=
  match buf with
  | [] => .error .MalformedInput
  | c :: rest =>
    if c = 100 then
      match parseStr rest with
      | .error e => .error e
      | .ok (k, r) =>
        if k = discKey then
          match parseStr r with
          | .error e => .error e
          | .ok (tag, r2) =>
            if tag = latencyTag then
              match decodeFields (r2.length + 1) r2 {} with
              | .ok (m, _) => .ok m
              | .error e => .error e
            else .error .UnknownDiscriminant
        else .error .MalformedInput
    else .error .MalformedInput

/-- Modelled from the spec: decode a buffer and, only on success, dispatch
the decoded message to the handler capability (`HandleMessage`); a decode
failure never reaches any handler method. -/
def runHandler (h : PathLatencyMessage → Bool) (buf : List Nat) :
    Except DecodeError Bool :=
  match decodeMessage buf with
  | .ok m => .ok (h m)
  | .error e => .error e

/-- Modelled from the spec: the originator's correlation state machine.  A
probe carrying `L = 0` is the outbound, unfilled form — a forwarded echo
target, not a completion — and is handled without touching the outstanding
set.  A probe with nonzero `L` whose `T` matches an outstanding token
completes the measurement and removes `T` from the outstanding set (handler
success); one with nonzero `L` whose `T` matches nothing outstanding is
rejected by the handler (`HandlerRejected`, i.e. `false`) with the state
unchanged. -/
def originatorHandleLatency (outstanding : Finset Nat)
    (m : PathLatencyMessage) : Bool × Finset Nat :=
  if m.L = 0 then (true, outstanding)
  else if m.T ∈ outstanding then (true, outstanding.erase m.T)
  else (false, outstanding)

/-- Modelled from the spec: the responder role — on receiving a probe, set
`L` to its own measurement and echo the probe back, never modifying `T`. -/
def responderRespond (m : PathLatencyMessage) (measured : Nat) :
    PathLatencyMessage :=
  { T := m.T, L := measured }

/-- The log levels of `llarp::LogLevel`, in declaration order. -/
inductive LogLevel where
  | eLogDebug
  | eLogInfo
  | eLogWarn
  | eLogError
  | eLogNone
deriving DecidableEq

/-- Underlying integer of the C++ enum (declaration order from 0). -/
def LogLevel.toNat : LogLevel → Nat
  | .eLogDebug => 0
  | .eLogInfo => 1
  | .eLogWarn => 2
  | .eLogError => 3
  | .eLogNone => 4

/-- ASCII escape character, as `(char)27` in `_Log`. -/
def escChar : String := String.singleton (Char.ofNat 27)

/-- The per-level colour/label text `_Log` writes before the body
(default, non-Android branch of the switch). -/
def levelTag : LogLevel → String
  | .eLogNone => ""
  | .eLogDebug => escChar ++ "[0m" ++ "[DBG] "
  | .eLogInfo => escChar ++ "[1m" ++ "[NFO] "
  | .eLogWarn => escChar ++ "[1;33m" ++ "[WRN] "
  | .eLogError => escChar ++ "[1;31m" ++ "[ERR] "

/-- State of `llarp::Logger`: node name, minimum level, and the output
stream modelled as the list of lines written so far. -/
structure Logger where
  nodeName : String
  minlevel : LogLevel := .eLogInfo
  out : List String

/-- The single line `_Log` builds in its stringstream: level tag, node name,
thread id, timestamp, file tag, line number, tab, the appended arguments, and
the closing colour reset.  Thread id and timestamp are ambient inputs. -/
def formatLogLine (g : Logger) (lvl : LogLevel) (fname : String)
    (lineno : Nat) (tid ts : String) (args : String) : String :=
  levelTag lvl ++ g.nodeName ++ " (" ++ tid ++ ") " ++ ts ++ " " ++ fname ++
    ":" ++ toString lineno ++ "\t" ++ args ++ escChar ++ "[0;0m"

/-- `llarp::_Log` on the logger state: return unchanged when the configured
minimum level is strictly above `lvl`, otherwise append exactly one
formatted line to the output stream. -/
def runLog (g : Logger) (lvl : LogLevel) (fname : String) (lineno : Nat)
    (tid ts : String) (args : String) : Logger :=
  if lvl.toNat < g.minlevel.toNat then g
  else { g with out := g.out ++ [formatLogLine g lvl fname lineno tid ts args] }

/-- Abstract daemon state behind an `llarp_main` handle: all the JNI `Stop`
entry point observes of it is whether it is running. -/
structure DaemonState where
  running : Bool
deriving DecidableEq

/-- Result of the JNI `Stop` call: the returned jboolean, whether
`llarp_main_stop` was invoked, and the daemon state afterward. -/
structure StopResult where
  ret : Bool
  stopCalled : Bool
  state : Option DaemonState
deriving DecidableEq

/-- `Java_network_loki_lokinet_LokinetDaemon_Stop`: null handle or
not-running daemon return `JNI_FALSE` without calling `llarp_main_stop`;
otherwise `llarp_main_stop` (an external call, abstracted as `stopImpl`) is
invoked and the result is `JNI_TRUE` exactly when the daemon is no longer
running afterward. -/
def jniStop (stopImpl : DaemonState → DaemonState) :
    Option DaemonState → StopResult
  | none => ⟨false, false, none⟩
  | some d =>
    if d.running then
      let d2 := stopImpl d
      ⟨!d2.running, true, some d2⟩
    else ⟨false, false, some d⟩

theorem digitsVal_eq (l : List Nat) (acc : Nat) :
    digitsVal l acc = acc * 10 ^ l.length + Nat.ofDigits 10 l.reverse := by
  induction l generalizing acc with
  | nil => simp [digitsVal, Nat.ofDigits]
  | cons d t ih =>
    simp only [digitsVal, List.length_cons, List.reverse_cons]
    rw [ih, Nat.ofDigits_append]
    simp only [Nat.ofDigits, List.length_reverse]
    push_cast
    ring

theorem decDigits_val (n : Nat) : digitsVal (decDigits n) 0 = n := by
  by_cases h : n = 0
  · subst h; simp [decDigits, digitsVal]
  · simp only [decDigits, if_neg h]
    rw [digitsVal_eq]
    simp [Nat.ofDigits_digits]

theorem decDigits_lt (n : Nat) : ∀ d ∈ decDigits n, d < 10 := by
  intro d hd
  by_cases h : n = 0
  · subst h; simp [decDigits] at hd; omega
  · simp only [decDigits, if_neg h, List.mem_reverse] at hd
    exact Nat.digits_lt_base (by norm_num) hd

theorem decDigits_ne_nil (n : Nat) : decDigits n ≠ [] := by
  by_cases h : n = 0
  · subst h; simp [decDigits]
  · simp [decDigits, if_neg h, Nat.digits_ne_nil_iff_ne_zero, h]

theorem natDec_ne_nil (n : Nat) : natDec n ≠ [] := by
  simpa [natDec] using decDigits_ne_nil n

theorem natDec_length_pos (n : Nat) : 0 < (natDec n).length :=
  List.length_pos.mpr (natDec_ne_nil n)

theorem natDec_head (n : Nat) :
    ∃ c t, natDec n = c :: t ∧ 48 ≤ c ∧ c ≤ 57 := by
  obtain ⟨c, t, h⟩ := List.exists_cons_of_ne_nil (natDec_ne_nil n)
  refine ⟨c, t, h, ?_, ?_⟩ <;>
  · have hc : c ∈ natDec n := by simp [h]
    simp only [natDec, List.mem_map] at hc
    obtain ⟨d, hd, rfl⟩ := hc
    have := decDigits_lt n d hd
    omega

theorem readDigits_mapped (ds : List Nat) (rest : List Nat) (acc : Nat)
    (hds : ∀ d ∈ ds, d < 10) (hrest : headDigit rest = false) :
    readDigits (ds.map (fun d => d + 48) ++ rest) acc =
      (ds.length, digitsVal ds acc, rest) := by
  induction ds generalizing acc with
  | nil =>
    simp only [List.map_nil, List.nil_append, List.length_nil, digitsVal]
    cases rest with
    | nil => rfl
    | cons c t =>
      simp only [headDigit] at hrest
      simp [readDigits, hrest]
  | cons d t ih =>
    have hd : d < 10 := hds d (by simp)
    have hdig : isDigit (d + 48) = true := by
      simp only [isDigit, Bool.and_eq_true, decide_eq_true_eq]; omega
    simp only [List.map_cons, List.cons_append, readDigits, hdig, if_true,
      List.append_eq]
    rw [ih _ (fun x hx => hds x (List.mem_cons_of_mem d hx))]
    simp only [List.length_cons, digitsVal, Nat.add_sub_cancel]

theorem readDigits_natDec (n : Nat) (rest : List Nat)
    (hrest : headDigit rest = false) :
    readDigits (natDec n ++ rest) 0 = ((natDec n).length, n, rest) := by
  unfold natDec
  rw [readDigits_mapped _ _ _ (decDigits_lt n) hrest, decDigits_val]
  simp

theorem parseNat_natDec (n : Nat) (rest : List Nat)
    (hrest : headDigit rest = false) :
    parseNat (natDec n ++ rest) = .ok (n, rest) := by
  unfold parseNat
  rw [readDigits_natDec n rest hrest]
  have h : (natDec n).length ≠ 0 := by
    simpa [List.length_eq_zero] using natDec_ne_nil n
  simp [h]

theorem readDigits_take (n j : Nat) (hle : j ≤ (natDec n).length) :
    readDigits (List.take j (natDec n)) 0 =
      (j, digitsVal (List.take j (decDigits n)) 0, []) := by
  have hlen : (natDec n).length = (decDigits n).length := by simp [natDec]
  unfold natDec
  rw [← List.map_take]
  have h1 : readDigits (List.map (fun d => d + 48) (List.take j (decDigits n)) ++ []) 0 =
      ((List.take j (decDigits n)).length,
        digitsVal (List.take j (decDigits n)) 0, []) :=
    readDigits_mapped _ _ _
      (fun d hd => decDigits_lt n d (List.take_subset _ _ hd)) rfl
  rw [List.append_nil] at h1
  rw [h1]
  congr 1
  simp only [List.length_take]
  omega

theorem parseNat_take (n j : Nat) (hj : 0 < j) (hle : j ≤ (natDec n).length) :
    parseNat (List.take j (natDec n)) =
      .ok (digitsVal (List.take j (decDigits n)) 0, []) := by
  unfold parseNat
  rw [readDigits_take n j hle]
  simp only []
  have : j ≠ 0 := by omega
  simp [this]

theorem takeExact_append (k rest : List Nat) :
    takeExact k.length (k ++ rest) = some (k, rest) := by
  induction k with
  | nil => rfl
  | cons c t ih => simp [takeExact, ih]

theorem takeExact_short (n : Nat) (l : List Nat) (h : l.length < n) :
    takeExact n l = none := by
  induction l generalizing n with
  | nil =>
    cases n with
    | zero => omega
    | succ m => rfl
  | cons c t ih =>
    cases n with
    | zero => omega
    | succ m => simp [takeExact, ih m (by simpa using h)]

theorem parseStr_encodeStr (k rest : List Nat) :
    parseStr (encodeStr k ++ rest) = .ok (k, rest) := by
  unfold parseStr encodeStr
  rw [List.append_assoc, List.cons_append]
  rw [parseNat_natDec _ _ (by simp [headDigit, isDigit])]
  simp [takeExact_append]

theorem parseNat_nil : parseNat [] = .error .MalformedInput := rfl

theorem parseStr_take (k : List Nat) (j : Nat) (hj : j < (encodeStr k).length) :
    parseStr (List.take j (encodeStr k)) = .error .MalformedInput := by
  have hlen : (encodeStr k).length = (natDec k.length).length + 1 + k.length := by
    simp [encodeStr]; omega
  by_cases hcase : j ≤ (natDec k.length).length
  · have htake : List.take j (encodeStr k) = List.take j (natDec k.length) := by
      unfold encodeStr
      rw [List.take_append_eq_append_take]
      have : j - (natDec k.length).length = 0 := by omega
      rw [this]
      simp
    rw [htake]
    by_cases hj0 : j = 0
    · subst hj0; simp [parseStr, parseNat_nil]
    · rw [parseStr]
      rw [parseNat_take k.length j (by omega) hcase]
  · have hj2 : j - (natDec k.length).length - 1 < k.length := by omega
    have htake : List.take j (encodeStr k) =
        natDec k.length ++ 58 :: List.take (j - (natDec k.length).length - 1) k := by
      unfold encodeStr
      rw [List.take_append_eq_append_take]
      rw [List.take_of_length_le (by omega)]
      congr 1
      have : j - (natDec k.length).length = (j - (natDec k.length).length - 1) + 1 := by
        omega
      rw [this]
      simp
    rw [htake, parseStr]
    rw [parseNat_natDec _ _ (by simp [headDigit, isDigit])]
    have hshort : takeExact k.length
        (List.take (j - (natDec k.length).length - 1) k) = none := by
      apply takeExact_short
      simp only [List.length_take]
      omega
    simp [hshort]

theorem parseIntCore_natDec (n : Nat) (rest : List Nat) :
    parseIntCore (natDec n ++ 101 :: rest) = .ok ((n : Int), rest) := by
  obtain ⟨c, t, hct, h48, h57⟩ := natDec_head n
  rw [hct, List.cons_append, parseIntCore]
  have hc45 : ¬ c = 45 := by omega
  rw [if_neg hc45, ← List.cons_append, ← hct]
  rw [parseNat_natDec n _ (by simp [headDigit, isDigit])]
  simp

theorem parseBInt_encNatInt (n : Nat) (rest : List Nat) :
    parseBInt (encNatInt n ++ rest) = .ok ((n : Int), rest) := by
  have h : encNatInt n ++ rest = 105 :: (natDec n ++ 101 :: rest) := by
    simp [encNatInt]
  rw [h]
  have hb : parseBInt (105 :: (natDec n ++ 101 :: rest)) =
      parseIntCore (natDec n ++ 101 :: rest) := by
    simp [parseBInt]
  rw [hb]
  exact parseIntCore_natDec n rest

theorem parseUInt64_encNatInt (n : Nat) (rest : List Nat) (hn : n < 2 ^ 64) :
    parseUInt64 (encNatInt n ++ rest) = .ok (n, rest) := by
  unfold parseUInt64
  rw [parseBInt_encNatInt]
  have h1 : (0 : Int) ≤ (n : Int) := Int.ofNat_nonneg n
  have h2 : (n : Int) < (2 : Int) ^ 64 := by exact_mod_cast hn
  have h3 : n < 18446744073709551616 := by
    have h4 : (2 : Nat) ^ 64 = 18446744073709551616 := by norm_num
    omega
  simp [h1, h2, h3]

theorem parseIntCore_take (n j : Nat) (hj : j ≤ (natDec n).length) :
    parseIntCore (List.take j (natDec n)) = .error .MalformedInput := by
  by_cases hj0 : j = 0
  · subst hj0; rfl
  · obtain ⟨c, t, hct, h48, h57⟩ := natDec_head n
    have htake : List.take j (natDec n) = c :: List.take (j - 1) t := by
      rw [hct]
      have : j = (j - 1) + 1 := by omega
      rw [this]
      simp
    rw [htake, parseIntCore]
    have hc45 : ¬ c = 45 := by omega
    rw [if_neg hc45, ← htake]
    rw [parseNat_take n j (by omega) hj]

theorem parseUInt64_take (n j : Nat) (hj : j < (encNatInt n).length) :
    parseUInt64 (List.take j (encNatInt n)) = .error .MalformedInput := by
  have hlen : (encNatInt n).length = (natDec n).length + 2 := by
    simp [encNatInt]
  by_cases hj0 : j = 0
  · subst hj0; rfl
  · obtain ⟨j2, rfl⟩ : ∃ j2, j = j2 + 1 := ⟨j - 1, by omega⟩
    have htake : List.take (j2 + 1) (encNatInt n) =
        105 :: List.take j2 (natDec n) := by
      unfold encNatInt
      simp only [List.cons_append, List.take_succ_cons]
      rw [List.take_append_eq_append_take]
      have h2 : j2 - (natDec n).length = 0 := by omega
      rw [h2]
      simp
    rw [htake]
    have hb : parseBInt (105 :: List.take j2 (natDec n)) =
        parseIntCore (List.take j2 (natDec n)) := by
      simp [parseBInt]
    unfold parseUInt64
    rw [hb, parseIntCore_take n j2 (by omega)]

theorem parseIntCore_intDec (z : Int) (rest : List Nat) :
    parseIntCore (intDec z ++ 101 :: rest) = .ok (z, rest) := by
  unfold intDec
  by_cases hz : z < 0
  · rw [if_pos hz]
    simp only [List.cons_append, parseIntCore, if_pos]
    rw [parseNat_natDec _ _ (by simp [headDigit, isDigit])]
    simp
    rw [abs_of_neg hz, neg_neg]
  · rw [if_neg hz]
    have : ((z.natAbs : Nat) : Int) = z := by omega
    rw [parseIntCore_natDec z.natAbs rest, this]

theorem encodeStr_length_pos (k : List Nat) : 0 < (encodeStr k).length := by
  simp only [encodeStr, List.length_append]
  have := natDec_length_pos k.length
  omega

theorem encodeVal_length_pos (v : BValue) : 0 < (encodeVal v).length := by
  cases v with
  | int z => simp [encodeVal]
  | str s => exact encodeStr_length_pos s
  | list vs => simp [encodeVal]
  | dict es => simp [encodeVal]

theorem encodeVal_head (v : BValue) :
    ∃ c t, encodeVal v = c :: t ∧ ¬ c = 101 := by
  cases v with
  | int z =>
    exact ⟨105, intDec z ++ [101], by simp [encodeVal], by norm_num⟩
  | str s =>
    obtain ⟨c, t, hct, h48, h57⟩ := natDec_head s.length
    refine ⟨c, t ++ 58 :: s, ?_, by omega⟩
    simp [encodeVal, encodeStr, hct]
  | list vs =>
    exact ⟨108, encodeItems vs ++ [101], by simp [encodeVal], by norm_num⟩
  | dict es =>
    exact ⟨100, encodeEntries es ++ [101], by simp [encodeVal], by norm_num⟩

theorem parseVal_int (f : Nat) (z : Int) (rest : List Nat) :
    parseVal (f + 1) (encodeVal (.int z) ++ rest) = .ok (.int z, rest) := by
  have h : encodeVal (.int z) ++ rest = 105 :: (intDec z ++ 101 :: rest) := by
    simp [encodeVal]
  rw [h]
  simp [parseVal, parseIntCore_intDec z rest]

theorem parseVal_str (f : Nat) (s rest : List Nat) :
    parseVal (f + 1) (encodeVal (.str s) ++ rest) = .ok (.str s, rest) := by
  obtain ⟨c, t, hct, h48, h57⟩ := natDec_head s.length
  have h : encodeVal (.str s) ++ rest = c :: (t ++ 58 :: (s ++ rest)) := by
    simp [encodeVal, encodeStr, hct]
  rw [h]
  have hc105 : ¬ c = 105 := by omega
  have hc108 : ¬ c = 108 := by omega
  have hc100 : ¬ c = 100 := by omega
  have hcdig : isDigit c = true := by
    simp only [isDigit, Bool.and_eq_true, decide_eq_true_eq]; omega
  have hstr : c :: (t ++ 58 :: (s ++ rest)) = encodeStr s ++ rest := by
    simp [encodeStr, hct]
  simp only [parseVal, hc105, hc108, hc100, hcdig, if_false, if_true]
  rw [hstr, parseStr_encodeStr]

theorem parseItems_encode (vs : List BValue) : ∀ (f : Nat) (acc : List BValue)
    (rest : List Nat),
    (∀ f2, f2 ≤ f → ∀ v r2, (encodeVal v).length ≤ f2 →
      parseVal f2 (encodeVal v ++ r2) = .ok (v, r2)) →
    (encodeItems vs).length < f →
    parseItems f (encodeItems vs ++ 101 :: rest) acc =
      .ok (.list (acc.reverse ++ vs), rest) := by
  induction vs with
  | nil =>
    intro f acc rest _ hlen
    obtain ⟨g, rfl⟩ : ∃ g, f = g + 1 := ⟨f - 1, by omega⟩
    simp [encodeItems, parseItems]
  | cons v vs ih =>
    intro f acc rest hspec hlen
    have hv := encodeVal_length_pos v
    have hlen2 : (encodeItems (v :: vs)).length =
        (encodeVal v).length + (encodeItems vs).length := by
      simp [encodeItems]
    obtain ⟨g, rfl⟩ : ∃ g, f = g + 1 := ⟨f - 1, by omega⟩
    obtain ⟨c, t, hct, hc101⟩ := encodeVal_head v
    have hbuf : encodeItems (v :: vs) ++ 101 :: rest =
        c :: (t ++ (encodeItems vs ++ 101 :: rest)) := by
      simp [encodeItems, hct]
    rw [hbuf]
    simp only [parseVal, parseItems, hc101, if_false]
    have hback : c :: (t ++ (encodeItems vs ++ 101 :: rest)) =
        encodeVal v ++ (encodeItems vs ++ 101 :: rest) := by
      simp [hct]
    rw [hback]
    rw [hspec g (by omega) v _ (by omega)]
    simp only [ih g (v :: acc) rest (fun f2 hf2 => hspec f2 (by omega)) (by omega)]
    simp

theorem parseEntries_encode (es : List (List Nat × BValue)) : ∀ (f : Nat)
    (acc : List (List Nat × BValue)) (rest : List Nat),
    (∀ f2, f2 ≤ f → ∀ v r2, (encodeVal v).length ≤ f2 →
      parseVal f2 (encodeVal v ++ r2) = .ok (v, r2)) →
    (encodeEntries es).length < f →
    parseEntries f (encodeEntries es ++ 101 :: rest) acc =
      .ok (.dict (acc.reverse ++ es), rest) := by
  induction es with
  | nil =>
    intro f acc rest _ hlen
    obtain ⟨g, rfl⟩ : ∃ g, f = g + 1 := ⟨f - 1, by omega⟩
    simp [encodeEntries, parseEntries]
  | cons e es ih =>
    intro f acc rest hspec hlen
    have hv := encodeVal_length_pos e.2
    have hk := encodeStr_length_pos e.1
    have hlen2 : (encodeEntries (e :: es)).length =
        (encodeStr e.1).length + (encodeVal e.2).length +
          (encodeEntries es).length := by
      simp [encodeEntries]; omega
    obtain ⟨g, rfl⟩ : ∃ g, f = g + 1 := ⟨f - 1, by omega⟩
    obtain ⟨c, t, hct, h48, h57⟩ := natDec_head e.1.length
    have hc101 : ¬ c = 101 := by omega
    have hbuf : encodeEntries (e :: es) ++ 101 :: rest =
        c :: (t ++ 58 :: (e.1 ++ (encodeVal e.2 ++ (encodeEntries es ++ 101 :: rest)))) := by
      simp [encodeEntries, encodeStr, hct]
    rw [hbuf]
    simp only [parseEntries, hc101, if_false]
    have hback : c :: (t ++ 58 :: (e.1 ++ (encodeVal e.2 ++ (encodeEntries es ++ 101 :: rest)))) =
        encodeStr e.1 ++ (encodeVal e.2 ++ (encodeEntries es ++ 101 :: rest)) := by
      simp [encodeStr, hct]
    rw [hback, parseStr_encodeStr]
    simp only [hspec g (by omega) e.2 _ (by omega)]
    simp only [ih g (e :: acc) rest (fun f2 hf2 => hspec f2 (by omega)) (by omega)]
    simp

theorem parseVal_encode (fuel : Nat) : ∀ (v : BValue) (rest : List Nat),
    (encodeVal v).length ≤ fuel →
    parseVal fuel (encodeVal v ++ rest) = .ok (v, rest) := by
  induction fuel using Nat.strong_induction_on with
  | _ fuel ih =>
    intro v rest hlen
    have hpos := encodeVal_length_pos v
    obtain ⟨f, rfl⟩ : ∃ f, fuel = f + 1 := ⟨fuel - 1, by omega⟩
    cases v with
    | int z => exact parseVal_int f z rest
    | str s => exact parseVal_str f s rest
    | list vs =>
      have hbuf : encodeVal (.list vs) ++ rest =
          108 :: (encodeItems vs ++ 101 :: rest) := by
        simp [encodeVal]
      have hlen2 : (encodeVal (.list vs)).length =
          (encodeItems vs).length + 2 := by
        simp [encodeVal]
      rw [hbuf]
      simp only [parseVal]
      norm_num
      have h := parseItems_encode vs f []
        rest (fun f2 hf2 v2 r2 hl2 => ih f2 (by omega) v2 r2 hl2) (by omega)
      simpa using h
    | dict es =>
      have hbuf : encodeVal (.dict es) ++ rest =
          100 :: (encodeEntries es ++ 101 :: rest) := by
        simp [encodeVal]
      have hlen2 : (encodeVal (.dict es)).length =
          (encodeEntries es).length + 2 := by
        simp [encodeVal]
      rw [hbuf]
      simp only [parseVal]
      norm_num
      have h := parseEntries_encode es f []
        rest (fun f2 hf2 v2 r2 hl2 => ih f2 (by omega) v2 r2 hl2) (by omega)
      simpa using h

theorem decodeFields_nil (f : Nat) (m : PathLatencyMessage) :
    decodeFields f [] m = .error .MalformedInput := by
  cases f with
  | zero => rfl
  | succ f => rfl

theorem decodeFields_term (f : Nat) (rest : List Nat) (m : PathLatencyMessage) :
    decodeFields (f + 1) (101 :: rest) m = .ok (m, rest) := by
  simp [decodeFields]

theorem decodeFields_step_T (f n : Nat) (hn : n < 2 ^ 64) (rest : List Nat)
    (m : PathLatencyMessage) :
    decodeFields (f + 1) (encodeStr keyT ++ (encNatInt n ++ rest)) m =
      decodeFields f rest { m with T := n } := by
  obtain ⟨c, t, hct, h48, h57⟩ := natDec_head keyT.length
  have hbuf : encodeStr keyT ++ (encNatInt n ++ rest) =
      c :: (t ++ 58 :: (keyT ++ (encNatInt n ++ rest))) := by
    simp [encodeStr, hct]
  have hc101 : ¬ c = 101 := by omega
  rw [hbuf]
  simp only [decodeFields, hc101, if_false]
  rw [show c :: (t ++ 58 :: (keyT ++ (encNatInt n ++ rest))) =
    encodeStr keyT ++ (encNatInt n ++ rest) from hbuf.symm]
  rw [parseStr_encodeStr]
  simp only [PathLatencyMessage.DecodeKey, if_pos,
    parseUInt64_encNatInt n rest hn]

theorem decodeFields_step_L (f n : Nat) (hn : n < 2 ^ 64) (rest : List Nat)
    (m : PathLatencyMessage) :
    decodeFields (f + 1) (encodeStr keyL ++ (encNatInt n ++ rest)) m =
      decodeFields f rest { m with L := n } := by
  obtain ⟨c, t, hct, h48, h57⟩ := natDec_head keyL.length
  have hbuf : encodeStr keyL ++ (encNatInt n ++ rest) =
      c :: (t ++ 58 :: (keyL ++ (encNatInt n ++ rest))) := by
    simp [encodeStr, hct]
  have hc101 : ¬ c = 101 := by omega
  rw [hbuf]
  simp only [decodeFields, hc101, if_false]
  rw [show c :: (t ++ 58 :: (keyL ++ (encNatInt n ++ rest))) =
    encodeStr keyL ++ (encNatInt n ++ rest) from hbuf.symm]
  rw [parseStr_encodeStr]
  have hLT : ¬ keyL = keyT := by decide
  simp only [PathLatencyMessage.DecodeKey, hLT, if_false, if_pos,
    parseUInt64_encNatInt n rest hn]

theorem decodeFields_step_skip (f : Nat) (k : List Nat) (hkT : ¬ k = keyT)
    (hkL : ¬ k = keyL) (v : BValue) (rest : List Nat) (m : PathLatencyMessage)
    (hf : (encodeVal v).length ≤ f) :
    decodeFields (f + 1) (encodeStr k ++ (encodeVal v ++ rest)) m =
      decodeFields f rest m := by
  obtain ⟨c, t, hct, h48, h57⟩ := natDec_head k.length
  have hbuf : encodeStr k ++ (encodeVal v ++ rest) =
      c :: (t ++ 58 :: (k ++ (encodeVal v ++ rest))) := by
    simp [encodeStr, hct]
  have hc101 : ¬ c = 101 := by omega
  rw [hbuf]
  simp only [decodeFields, hc101, if_false]
  rw [show c :: (t ++ 58 :: (k ++ (encodeVal v ++ rest))) =
    encodeStr k ++ (encodeVal v ++ rest) from hbuf.symm]
  rw [parseStr_encodeStr]
  simp only [PathLatencyMessage.DecodeKey, hkT, hkL, if_false,
    parseVal_encode f v rest hf]

theorem decodeFields_take_str (f : Nat) (m : PathLatencyMessage)
    (k : List Nat) (j : Nat) (hj : 0 < j) (hlt : j < (encodeStr k).length) :
    decodeFields f (List.take j (encodeStr k)) m = .error .MalformedInput := by
  cases f with
  | zero => rfl
  | succ f =>
    obtain ⟨c, t, hct, h48, h57⟩ := natDec_head k.length
    have hct2 : encodeStr k = c :: (t ++ 58 :: k) := by simp [encodeStr, hct]
    obtain ⟨j2, rfl⟩ : ∃ j2, j = j2 + 1 := ⟨j - 1, by omega⟩
    have htake : List.take (j2 + 1) (encodeStr k) =
        c :: List.take j2 (t ++ 58 :: k) := by
      rw [hct2]; simp
    rw [htake]
    have hc101 : ¬ c = 101 := by omega
    simp only [decodeFields, hc101, if_false]
    rw [← htake, parseStr_take k (j2 + 1) hlt]

theorem decodeFields_take_int (f : Nat) (m : PathLatencyMessage)
    (k : List Nat) (hk : k = keyT ∨ k = keyL) (n j : Nat)
    (hj : j < (encNatInt n).length) :
    decodeFields f (encodeStr k ++ List.take j (encNatInt n)) m =
      .error .MalformedInput := by
  cases f with
  | zero => rfl
  | succ f =>
    obtain ⟨c, t, hct, h48, h57⟩ := natDec_head k.length
    have hbuf : encodeStr k ++ List.take j (encNatInt n) =
        c :: (t ++ 58 :: (k ++ List.take j (encNatInt n))) := by
      simp [encodeStr, hct]
    have hc101 : ¬ c = 101 := by omega
    rw [hbuf]
    simp only [decodeFields, hc101, if_false]
    rw [show c :: (t ++ 58 :: (k ++ List.take j (encNatInt n))) =
      encodeStr k ++ List.take j (encNatInt n) from hbuf.symm]
    rw [parseStr_encodeStr]
    rcases hk with rfl | rfl
    · simp only [PathLatencyMessage.DecodeKey, if_pos,
        parseUInt64_take n j hj]
    · have hLT : ¬ keyL = keyT := by decide
      simp only [PathLatencyMessage.DecodeKey, hLT, if_false, if_pos,
        parseUInt64_take n j hj]

theorem decodeFields_tail_take (fuel : Nat) (m : PathLatencyMessage)
    (n j : Nat) (hn : n < 2 ^ 64)
    (hj : j < (encodeStr keyT).length + ((encNatInt n).length + 1)) :
    decodeFields fuel (List.take j (encodeStr keyT ++ (encNatInt n ++ [101]))) m =
      .error .MalformedInput := by
  by_cases h0 : j = 0
  · subst h0; simp [decodeFields_nil]
  · by_cases h1 : j < (encodeStr keyT).length
    · have htake : List.take j (encodeStr keyT ++ (encNatInt n ++ [101])) =
          List.take j (encodeStr keyT) := by
        rw [List.take_append_eq_append_take]
        have h2 : j - (encodeStr keyT).length = 0 := by omega
        rw [h2]; simp
      rw [htake]
      exact decodeFields_take_str fuel m keyT j (by omega) h1
    · by_cases h2 : j < (encodeStr keyT).length + (encNatInt n).length
      · have htake : List.take j (encodeStr keyT ++ (encNatInt n ++ [101])) =
            encodeStr keyT ++
              List.take (j - (encodeStr keyT).length) (encNatInt n) := by
          rw [List.take_append_eq_append_take, List.take_of_length_le (by omega)]
          congr 1
          rw [List.take_append_eq_append_take]
          have h3 : j - (encodeStr keyT).length - (encNatInt n).length = 0 := by
            omega
          rw [h3]; simp
        rw [htake]
        exact decodeFields_take_int fuel m keyT (Or.inl rfl) n _ (by omega)
      · have htake : List.take j (encodeStr keyT ++ (encNatInt n ++ [101])) =
            encodeStr keyT ++ (encNatInt n ++ []) := by
          rw [List.take_append_eq_append_take, List.take_of_length_le (by omega)]
          congr 1
          rw [List.take_append_eq_append_take, List.take_of_length_le (by omega)]
          congr 1
          have h3 : j - (encodeStr keyT).length - (encNatInt n).length = 0 := by
            omega
          rw [h3]
          simp
        rw [htake]
        cases fuel with
        | zero => rfl
        | succ f =>
          rw [decodeFields_step_T f n hn [] m]
          exact decodeFields_nil f _

theorem decodeFields_body_take (fuel : Nat) (m0 m : PathLatencyMessage)
    (hL : m0.L < 2 ^ 64) (hT : m0.T < 2 ^ 64) (j : Nat)
    (hj : j < (latencyBody m0).length) :
    decodeFields fuel (List.take j (latencyBody m0)) m = .error .MalformedInput := by
  have hlen : (latencyBody m0).length =
      (encodeStr keyL).length + ((encNatInt m0.L).length +
        ((encodeStr keyT).length + ((encNatInt m0.T).length + 1))) := by
    simp [latencyBody]
  by_cases h0 : j = 0
  · subst h0; simp [decodeFields_nil]
  · by_cases h1 : j < (encodeStr keyL).length
    · have htake : List.take j (latencyBody m0) = List.take j (encodeStr keyL) := by
        unfold latencyBody
        rw [List.take_append_eq_append_take]
        have h2 : j - (encodeStr keyL).length = 0 := by omega
        rw [h2]; simp
      rw [htake]
      exact decodeFields_take_str fuel m keyL j (by omega) h1
    · by_cases h2 : j < (encodeStr keyL).length + (encNatInt m0.L).length
      · have htake : List.take j (latencyBody m0) =
            encodeStr keyL ++
              List.take (j - (encodeStr keyL).length) (encNatInt m0.L) := by
          unfold latencyBody
          rw [List.take_append_eq_append_take, List.take_of_length_le (by omega)]
          congr 1
          rw [List.take_append_eq_append_take]
          have h3 : j - (encodeStr keyL).length - (encNatInt m0.L).length = 0 := by
            omega
          rw [h3]; simp
        rw [htake]
        exact decodeFields_take_int fuel m keyL (Or.inr rfl) m0.L _ (by omega)
      · have htake : List.take j (latencyBody m0) =
            encodeStr keyL ++ (encNatInt m0.L ++
              List.take (j - (encodeStr keyL).length - (encNatInt m0.L).length)
                (encodeStr keyT ++ (encNatInt m0.T ++ [101]))) := by
          unfold latencyBody
          rw [List.take_append_eq_append_take, List.take_of_length_le (by omega)]
          congr 1
          rw [List.take_append_eq_append_take, List.take_of_length_le (by omega)]
        rw [htake]
        cases fuel with
        | zero => rfl
        | succ f =>
          rw [decodeFields_step_L f m0.L hL _ m]
          exact decodeFields_tail_take f _ m0.T _ hT (by omega)

theorem latencyBody_length_ge (m0 : PathLatencyMessage) :
    3 ≤ (latencyBody m0).length := by
  have hlen : (latencyBody m0).length =
      (encodeStr keyL).length + ((encNatInt m0.L).length +
        ((encodeStr keyT).length + ((encNatInt m0.T).length + 1))) := by
    simp [latencyBody]
  have hk := encodeStr_length_pos keyL
  have hk2 := encodeStr_length_pos keyT
  omega

theorem decodeFields_latencyBody (m0 m : PathLatencyMessage)
    (hL : m0.L < 2 ^ 64) (hT : m0.T < 2 ^ 64) (f : Nat) :
    decodeFields (f + 3) (latencyBody m0) m =
      .ok ({ m with L := m0.L, T := m0.T }, []) := by
  rw [show latencyBody m0 = encodeStr keyL ++ (encNatInt m0.L ++
    (encodeStr keyT ++ (encNatInt m0.T ++ [101]))) from rfl]
  rw [show f + 3 = (f + 2) + 1 from rfl]
  rw [decodeFields_step_L (f + 2) m0.L hL _ m]
  rw [show f + 2 = (f + 1) + 1 from rfl]
  rw [decodeFields_step_T (f + 1) m0.T hT _ _]
  rw [decodeFields_term]

theorem decodeMessage_header_ok (body : List Nat) (m : PathLatencyMessage)
    (r : List Nat)
    (hd : decodeFields (body.length + 1) body {} = .ok (m, r)) :
    decodeMessage (100 :: (encodeStr discKey ++ (encodeStr latencyTag ++ body))) =
      .ok m := by
  unfold decodeMessage
  simp only [parseStr_encodeStr, hd]
  simp

theorem decodeMessage_header_err (body : List Nat) (e : DecodeError)
    (hd : decodeFields (body.length + 1) body {} = .error e) :
    decodeMessage (100 :: (encodeStr discKey ++ (encodeStr latencyTag ++ body))) =
      .error e := by
  unfold decodeMessage
  simp only [parseStr_encodeStr, hd]
  simp

theorem decodeMessage_discKey_err (R : List Nat)
    (hR : parseStr R = .error .MalformedInput) :
    decodeMessage (100 :: R) = .error .MalformedInput := by
  unfold decodeMessage
  simp only [hR]
  simp

theorem decodeMessage_tag_err (R : List Nat)
    (hR : parseStr R = .error .MalformedInput) :
    decodeMessage (100 :: (encodeStr discKey ++ R)) = .error .MalformedInput := by
  unfold decodeMessage
  simp only [parseStr_encodeStr, hR]
  simp

theorem decodeMessage_unknown_tag (tag : List Nat) (htag : ¬ tag = latencyTag)
    (rest : List Nat) :
    decodeMessage (100 :: (encodeStr discKey ++ (encodeStr tag ++ rest))) =
      .error .UnknownDiscriminant := by
  unfold decodeMessage
  simp only [parseStr_encodeStr]
  simp [htag]

theorem decodeMessage_BEncode (m : PathLatencyMessage) (hv : msgValid m) :
    decodeMessage m.BEncode = .ok m := by
  obtain ⟨hT, hL⟩ := hv
  have hN := latencyBody_length_ge m
  have hd : decodeFields ((latencyBody m).length + 1) (latencyBody m) {} =
      .ok ({ T := m.T, L := m.L }, []) := by
    rw [show (latencyBody m).length + 1 = ((latencyBody m).length - 2) + 3 from
      by omega]
    rw [decodeFields_latencyBody m {} hL hT _]
  rw [show m.BEncode = 100 :: (encodeStr discKey ++
    (encodeStr latencyTag ++ latencyBody m)) from rfl]
  rw [decodeMessage_header_ok _ _ _ hd]

theorem decodeMessage_BEncode_take (m : PathLatencyMessage) (hv : msgValid m)
    (k : Nat) (hk : k < (m.BEncode).length) :
    decodeMessage (List.take k (m.BEncode)) = .error .MalformedInput := by
  obtain ⟨hT, hL⟩ := hv
  have hlen : (m.BEncode).length = 1 + ((encodeStr discKey).length +
      ((encodeStr latencyTag).length + (latencyBody m).length)) := by
    simp [PathLatencyMessage.BEncode]
    omega
  by_cases h0 : k = 0
  · subst h0; rfl
  · obtain ⟨j, rfl⟩ : ∃ j, k = j + 1 := ⟨k - 1, by omega⟩
    have htake1 : List.take (j + 1) m.BEncode = 100 ::
        List.take j (encodeStr discKey ++
          (encodeStr latencyTag ++ latencyBody m)) := by
      rw [show m.BEncode = 100 :: (encodeStr discKey ++
        (encodeStr latencyTag ++ latencyBody m)) from rfl]
      simp
    rw [htake1]
    by_cases h1 : j < (encodeStr discKey).length
    · have htake2 : List.take j (encodeStr discKey ++
          (encodeStr latencyTag ++ latencyBody m)) =
            List.take j (encodeStr discKey) := by
        rw [List.take_append_eq_append_take]
        have h2 : j - (encodeStr discKey).length = 0 := by omega
        rw [h2]; simp
      rw [htake2]
      exact decodeMessage_discKey_err _ (parseStr_take discKey j h1)
    · have htake3 : List.take j (encodeStr discKey ++
          (encodeStr latencyTag ++ latencyBody m)) =
            encodeStr discKey ++ List.take (j - (encodeStr discKey).length)
              (encodeStr latencyTag ++ latencyBody m) := by
        rw [List.take_append_eq_append_take,
          List.take_of_length_le (by omega)]
      rw [htake3]
      by_cases h2 : j - (encodeStr discKey).length < (encodeStr latencyTag).length
      · have htake4 : List.take (j - (encodeStr discKey).length)
            (encodeStr latencyTag ++ latencyBody m) =
              List.take (j - (encodeStr discKey).length) (encodeStr latencyTag) := by
          rw [List.take_append_eq_append_take]
          have h3 : j - (encodeStr discKey).length -
              (encodeStr latencyTag).length = 0 := by omega
          rw [h3]; simp
        rw [htake4]
        exact decodeMessage_tag_err _ (parseStr_take latencyTag _ h2)
      · have htake5 : List.take (j - (encodeStr discKey).length)
            (encodeStr latencyTag ++ latencyBody m) =
              encodeStr latencyTag ++
                List.take (j - (encodeStr discKey).length -
                  (encodeStr latencyTag).length) (latencyBody m) := by
          rw [List.take_append_eq_append_take,
            List.take_of_length_le (by omega)]
        rw [htake5]
        apply decodeMessage_header_err
        exact decodeFields_body_take _ m {} hL hT _ (by omega)

theorem parseUInt64_str (s rest : List Nat) :
    parseUInt64 (encodeStr s ++ rest) = .error .TypeMismatch := by
  obtain ⟨c, t, hct, h48, h57⟩ := natDec_head s.length
  have hbuf : encodeStr s ++ rest = c :: (t ++ 58 :: (s ++ rest)) := by
    simp [encodeStr, hct]
  rw [hbuf]
  unfold parseUInt64 parseBInt
  have h105 : ¬ c = 105 := by omega
  simp [h105]

theorem DecodeKey_T_mismatch (m : PathLatencyMessage) (f : Nat)
    (s rest : List Nat) :
    m.DecodeKey f keyT (encodeStr s ++ rest) = .error .TypeMismatch := by
  unfold PathLatencyMessage.DecodeKey
  simp [parseUInt64_str]

theorem decodeFields_key_err (f : Nat) (k val : List Nat)
    (m : PathLatencyMessage) (e : DecodeError)
    (he : m.DecodeKey f k val = .error e) :
    decodeFields (f + 1) (encodeStr k ++ val) m = .error e := by
  obtain ⟨c, t, hct, h48, h57⟩ := natDec_head k.length
  have hbuf : encodeStr k ++ val = c :: (t ++ 58 :: (k ++ val)) := by
    simp [encodeStr, hct]
  have hc101 : ¬ c = 101 := by omega
  rw [hbuf]
  simp only [decodeFields, hc101, if_false]
  rw [show c :: (t ++ 58 :: (k ++ val)) = encodeStr k ++ val from hbuf.symm]
  rw [parseStr_encodeStr]
  simp only [he]

theorem decodeMessage_typeMismatch (s : List Nat) :
    decodeMessage (100 :: (encodeStr discKey ++ (encodeStr latencyTag ++
      (encodeStr keyT ++ (encodeStr s ++ [101]))))) =
        .error .TypeMismatch := by
  apply decodeMessage_header_err
  have hlen : (encodeStr keyT ++ (encodeStr s ++ [101])).length =
      ((encodeStr keyT ++ (encodeStr s ++ [101])).length - 1) + 1 := by
    have := encodeStr_length_pos keyT
    simp only [List.length_append]
    omega
  rw [hlen]
  exact decodeFields_key_err _ keyT (encodeStr s ++ [101]) {} _
    (DecodeKey_T_mismatch {} _ s [101])

theorem decodeMessage_unknown_field (k : List Nat) (hkT : ¬ k = keyT)
    (hkL : ¬ k = keyL) (v : BValue) :
    decodeMessage (100 :: (encodeStr discKey ++ (encodeStr latencyTag ++
      (encodeStr k ++ (encodeVal v ++ [101]))))) = .ok {} := by
  apply decodeMessage_header_ok _ _ []
  have hs := encodeStr_length_pos k
  have hv := encodeVal_length_pos v
  have hlen : (encodeStr k ++ (encodeVal v ++ [101])).length =
      (encodeStr k).length + ((encodeVal v).length + 1) := by
    simp
  have h1 := decodeFields_step_skip ((encodeStr k ++ (encodeVal v ++ [101])).length)
    k hkT hkL v [101] {} (by omega)
  rw [h1]
  obtain ⟨g, hg⟩ : ∃ g, (encodeStr k ++ (encodeVal v ++ [101])).length = g + 1 :=
    ⟨(encodeStr k ++ (encodeVal v ++ [101])).length - 1, by omega⟩
  rw [hg, decodeFields_term]

theorem runHandler_unknown_tag (h : PathLatencyMessage → Bool)
    (tag : List Nat) (htag : ¬ tag = latencyTag) (rest : List Nat) :
    runHandler h (100 :: (encodeStr discKey ++ (encodeStr tag ++ rest))) =
      .error .UnknownDiscriminant := by
  unfold runHandler
  rw [decodeMessage_unknown_tag tag htag rest]

theorem BEncode_length_ge (m : PathLatencyMessage) : 6 ≤ m.BEncode.length := by
  have hlen : (m.BEncode).length = 1 + ((encodeStr discKey).length +
      ((encodeStr latencyTag).length + (latencyBody m).length)) := by
    simp [PathLatencyMessage.BEncode]
    omega
  have h1 := encodeStr_length_pos discKey
  have h2 := encodeStr_length_pos latencyTag
  have h3 := latencyBody_length_ge m
  omega

/-- C1: for every valid latency probe `m`, decoding its encoding yields `m`
field-for-field, and every buffer that is itself a canonical encoding is
reproduced byte-for-byte by re-encoding its decode. -/
theorem claim_C1_roundtrip (m : PathLatencyMessage) (hv : msgValid m) :
    decodeMessage m.BEncode = .ok m ∧
    ∀ bytes, bytes = m.BEncode →
      ∃ m2, decodeMessage bytes = .ok m2 ∧ m2.BEncode = bytes := by
  refine ⟨decodeMessage_BEncode m hv, ?_⟩
  rintro bytes rfl
  exact ⟨m, decodeMessage_BEncode m hv, rfl⟩

theorem claim_C1_witness :
    msgValid ⟨42, 57⟩ ∧
    decodeMessage (PathLatencyMessage.BEncode ⟨42, 57⟩) = .ok ⟨42, 57⟩ := by
  have hv : msgValid (⟨42, 57⟩ : PathLatencyMessage) := by norm_num [msgValid]
  exact ⟨hv, (claim_C1_roundtrip ⟨42, 57⟩ hv).1⟩

/-- C2 counterexample: at the spec's own test vector a matching probe with
`L = 0` is an echo target, not a completion — the handler succeeds without
removing `T = 42` from the outstanding set (so the claim's "whose T matches
an outstanding token completes the measurement and removes T" is false as
stated), and a probe with `L = 0` whose `T` matches nothing outstanding is
handled as an echo target rather than rejected. -/
theorem claim_C2_counterexample :
    (⟨42, 0⟩ : PathLatencyMessage).T ∈ ({42} : Finset Nat) ∧
    originatorHandleLatency {42} ⟨42, 0⟩ = (true, {42}) ∧
    (⟨42, 0⟩ : PathLatencyMessage).T ∈ (originatorHandleLatency {42} ⟨42, 0⟩).2 ∧
    (⟨7, 0⟩ : PathLatencyMessage).T ∉ ({42} : Finset Nat) ∧
    (originatorHandleLatency {42} ⟨7, 0⟩).1 = true := by
  refine ⟨by simp, ?_, by simp [originatorHandleLatency], by simp, ?_⟩
  · simp [originatorHandleLatency]
  · simp [originatorHandleLatency]

/-- C2 (amended): in the originator state machine, a probe with nonzero `L`
whose `T` is outstanding completes the measurement and removes `T` from the
outstanding set; a probe with `L = 0` is treated as a forwarded echo target,
leaving the outstanding set unchanged; and any probe with nonzero `L` whose
`T` is not outstanding (including a duplicate after removal) decodes
successfully but the handler rejects it. -/
theorem claim_C2_correlation_amended (st : Finset Nat) (m : PathLatencyMessage)
    (hv : msgValid m) (hm : m.T ∈ st) (hL : ¬ m.L = 0) :
    originatorHandleLatency st m = (true, st.erase m.T) ∧
    m.T ∉ st.erase m.T ∧
    originatorHandleLatency (st.erase m.T) m = (false, st.erase m.T) ∧
    decodeMessage m.BEncode = .ok m ∧
    (∀ m2 : PathLatencyMessage, ¬ m2.L = 0 → m2.T ∉ st →
      originatorHandleLatency st m2 = (false, st)) ∧
    (∀ m3 : PathLatencyMessage, m3.L = 0 →
      originatorHandleLatency st m3 = (true, st)) := by
  refine ⟨?_, Finset.not_mem_erase _ _, ?_, decodeMessage_BEncode m hv, ?_, ?_⟩
  · simp [originatorHandleLatency, hm, hL]
  · simp [originatorHandleLatency, hL, Finset.not_mem_erase]
  · intro m2 hL2 hm2
    simp [originatorHandleLatency, hL2, hm2]
  · intro m3 hL3
    simp [originatorHandleLatency, hL3]

theorem claim_C2_witness :
    originatorHandleLatency {42} ⟨42, 57⟩ = (true, Finset.erase {42} 42) ∧
    originatorHandleLatency (Finset.erase {42} 42) ⟨42, 57⟩ =
      (false, Finset.erase {42} 42) ∧
    originatorHandleLatency {42} ⟨13, 0⟩ = (true, {42}) := by
  have hv : msgValid (⟨42, 57⟩ : PathLatencyMessage) := by norm_num [msgValid]
  have h := claim_C2_correlation_amended {42} ⟨42, 57⟩ hv (by simp) (by norm_num)
  exact ⟨h.1, h.2.2.1, h.2.2.2.2.2 ⟨13, 0⟩ rfl⟩

/-- C3: a dictionary with the latency probe's discriminant plus one extra,
unrecognized key/value pair decodes successfully, the extra pair being
consumed and discarded; no unknown field key alone makes decode fail. -/
theorem claim_C3_unknown_field (k : List Nat) (v : BValue)
    (hkT : ¬ k = keyT) (hkL : ¬ k = keyL) :
    decodeMessage (100 :: (encodeStr discKey ++ (encodeStr latencyTag ++
      (encodeStr k ++ (encodeVal v ++ [101]))))) = .ok {} :=
  decodeMessage_unknown_field k hkT hkL v

theorem claim_C3_witness :
    decodeMessage (100 :: (encodeStr discKey ++ (encodeStr latencyTag ++
      (encodeStr [88] ++ (encodeVal (.int 5) ++ [101]))))) = .ok {} :=
  claim_C3_unknown_field [88] (.int 5) (by decide) (by decide)

/-- C4: a known field (`T`) whose wire value is a byte string instead of an
integer makes `DecodeKey` return `TypeMismatch` as a value (no exception, no
coercion), and the whole-message decode fails with `TypeMismatch`. -/
theorem claim_C4_type_mismatch (s rest : List Nat) (m : PathLatencyMessage)
    (f : Nat) :
    m.DecodeKey f keyT (encodeStr s ++ rest) = .error .TypeMismatch ∧
    decodeMessage (100 :: (encodeStr discKey ++ (encodeStr latencyTag ++
      (encodeStr keyT ++ (encodeStr s ++ [101]))))) = .error .TypeMismatch :=
  ⟨DecodeKey_T_mismatch m f s rest, decodeMessage_typeMismatch s⟩

/-- C5: truncating a valid encoded latency probe at any byte boundary before
its terminator makes decode fail with `MalformedInput`, for every truncation
point. -/
theorem claim_C5_truncation (m : PathLatencyMessage) (hv : msgValid m)
    (k : Nat) (hk : k < m.BEncode.length) :
    decodeMessage (List.take k m.BEncode) = .error .MalformedInput :=
  decodeMessage_BEncode_take m hv k hk

theorem claim_C5_witness :
    decodeMessage (List.take 5 (PathLatencyMessage.BEncode ⟨1, 2⟩)) =
      .error .MalformedInput := by
  have hv : msgValid (⟨1, 2⟩ : PathLatencyMessage) := by norm_num [msgValid]
  exact claim_C5_truncation ⟨1, 2⟩ hv 5
    (by have := BEncode_length_ge ⟨1, 2⟩; omega)

/-- C6: a buffer whose top-level discriminant is not registered in the
dispatch table fails with `UnknownDiscriminant` and no handler method is
ever invoked for it. -/
theorem claim_C6_unknown_discriminant (tag : List Nat)
    (htag : ¬ tag = latencyTag) (rest : List Nat) :
    decodeMessage (100 :: (encodeStr discKey ++ (encodeStr tag ++ rest))) =
      .error .UnknownDiscriminant ∧
    ∀ h : PathLatencyMessage → Bool,
      runHandler h (100 :: (encodeStr discKey ++ (encodeStr tag ++ rest))) =
        .error .UnknownDiscriminant :=
  ⟨decodeMessage_unknown_tag tag htag rest,
   fun h => runHandler_unknown_tag h tag htag rest⟩

theorem claim_C6_witness :
    decodeMessage (100 :: (encodeStr discKey ++ (encodeStr [88] ++ [101]))) =
      .error .UnknownDiscriminant ∧
    runHandler (fun _ => true)
      (100 :: (encodeStr discKey ++ (encodeStr [88] ++ [101]))) =
        .error .UnknownDiscriminant := by
  have h := claim_C6_unknown_discriminant [88] (by decide) [101]
  exact ⟨h.1, h.2 (fun _ => true)⟩

/-- C7: the responder never changes the correlation token: every reply it
produces carries the same `T` as the received probe, with only `L` replaced
by its own measurement, including two independent replies to the same
probe. -/
theorem claim_C7_responder (m : PathLatencyMessage) (l1 l2 : Nat) :
    (responderRespond m l1).T = m.T ∧ (responderRespond m l2).T = m.T ∧
    (responderRespond m l1).L = l1 ∧ (responderRespond m l2).L = l2 := by
  simp [responderRespond]

/-- C8: the latency probe has exactly the two unsigned 64-bit fields `T` and
`L` (an instance is determined by them and validity is exactly the 64-bit
bounds), and a freshly constructed instance has `T = 0` and `L = 0`. -/
theorem claim_C8_fields :
    PathLatencyMessage.init.T = 0 ∧ PathLatencyMessage.init.L = 0 ∧
    (∀ a b : PathLatencyMessage, a.T = b.T → a.L = b.L → a = b) ∧
    (∀ m : PathLatencyMessage, msgValid m ↔ (m.T < 2 ^ 64 ∧ m.L < 2 ^ 64)) := by
  refine ⟨rfl, rfl, ?_, fun m => Iff.rfl⟩
  intro a b h1 h2
  cases a
  cases b
  simp_all

theorem claim_C8_witness :
    PathLatencyMessage.init.T = 0 ∧ PathLatencyMessage.init.L = 0 ∧
    (⟨3, 4⟩ : PathLatencyMessage) = ⟨3, 4⟩ :=
  ⟨claim_C8_fields.1, claim_C8_fields.2.1,
   claim_C8_fields.2.2.1 ⟨3, 4⟩ ⟨3, 4⟩ rfl rfl⟩

/-- C9: `_Log` writes nothing (logger state unchanged) when the configured
minimum level is strictly above `lvl`, and otherwise appends exactly one
formatted line to the output stream, leaving the rest of the logger state
unchanged. -/
theorem claim_C9_log_gate (g : Logger) (lvl : LogLevel) (fname : String)
    (lineno : Nat) (tid ts args : String) :
    (lvl.toNat < g.minlevel.toNat →
      runLog g lvl fname lineno tid ts args = g) ∧
    (¬ lvl.toNat < g.minlevel.toNat →
      (runLog g lvl fname lineno tid ts args).out =
        g.out ++ [formatLogLine g lvl fname lineno tid ts args] ∧
      (runLog g lvl fname lineno tid ts args).nodeName = g.nodeName ∧
      (runLog g lvl fname lineno tid ts args).minlevel = g.minlevel) := by
  constructor
  · intro h
    simp [runLog, h]
  · intro h
    simp [runLog, h]

theorem claim_C9_witness :
    runLog ⟨"node", .eLogWarn, []⟩ .eLogInfo "file" 3 "tid" "ts" "msg" =
      ⟨"node", .eLogWarn, []⟩ ∧
    (runLog ⟨"node", .eLogDebug, []⟩ .eLogError "file" 3 "tid" "ts" "msg").out =
      [] ++ [formatLogLine ⟨"node", .eLogDebug, []⟩ .eLogError "file" 3
        "tid" "ts" "msg"] := by
  refine ⟨(claim_C9_log_gate ⟨"node", .eLogWarn, []⟩ .eLogInfo
    "file" 3 "tid" "ts" "msg").1 (by decide), ?_⟩
  exact ((claim_C9_log_gate ⟨"node", .eLogDebug, []⟩ .eLogError
    "file" 3 "tid" "ts" "msg").2 (by decide)).1

/-- C10: the JNI `Stop` entry point returns `JNI_FALSE` without invoking
`llarp_main_stop` when the handle is null or the daemon is not running; when
it is running, `llarp_main_stop` is invoked and the result is `JNI_TRUE`
exactly when the daemon is no longer running afterward. -/
theorem claim_C10_jni_stop (stopImpl : DaemonState → DaemonState)
    (od : Option DaemonState) :
    (od = none → jniStop stopImpl od = ⟨false, false, none⟩) ∧
    (∀ d, od = some d → d.running = false →
      jniStop stopImpl od = ⟨false, false, some d⟩) ∧
    (∀ d, od = some d → d.running = true →
      (jniStop stopImpl od).stopCalled = true ∧
      (jniStop stopImpl od).state = some (stopImpl d) ∧
      ((jniStop stopImpl od).ret = true ↔ (stopImpl d).running = false)) := by
  refine ⟨?_, ?_, ?_⟩
  · rintro rfl
    rfl
  · rintro d rfl hd
    simp [jniStop, hd]
  · rintro d rfl hd
    simp [jniStop, hd]

theorem claim_C10_witness :
    jniStop (fun _ => ⟨false⟩) none = ⟨false, false, none⟩ ∧
    jniStop (fun _ => ⟨false⟩) (some ⟨false⟩) = ⟨false, false, some ⟨false⟩⟩ ∧
    (jniStop (fun _ => ⟨false⟩) (some ⟨true⟩)).stopCalled = true ∧
    ((jniStop (fun _ => ⟨false⟩) (some ⟨true⟩)).ret = true ↔
      ((fun _ => (⟨false⟩ : DaemonState)) (⟨true⟩ : DaemonState)).running = false) := by
  have h1 := claim_C10_jni_stop (fun _ => ⟨false⟩) none
  have h2 := claim_C10_jni_stop (fun _ => ⟨false⟩) (some ⟨false⟩)
  have h3 := claim_C10_jni_stop (fun _ => ⟨false⟩) (some ⟨true⟩)
  exact ⟨h1.1 rfl, h2.2.1 ⟨false⟩ rfl rfl, (h3.2.2 ⟨true⟩ rfl rfl).1,
    (h3.2.2 ⟨true⟩ rfl rfl).2.2⟩

end LokiRouting
